import Mathlib

/-!
Verification development for `scripts/build_courses.py` of the
fairway-forecast repository.

The Python source computes over IEEE floats and calls two external
standard-library facilities: the `math` module (radians, degrees, sin, cos,
sqrt, atan2) and `difflib.SequenceMatcher.ratio`.  The embedding models
numbers by `Rat` and passes the external functions as explicit parameters:
`MathApi` stands for the `math` module, and a function parameter `simFn`
stands for `SequenceMatcher(None, a, b).ratio()`.  Every repository function
is translated line by line from the source; theorems quantify over the
external parameters, so they hold in particular for the real trigonometric
functions and the real similarity measure.
-/

/-- Stand-in for the Python `math` module as used by `build_courses.py`:
each field is the corresponding `math` function, modelled on rationals. -/
structure MathApi where
  radians : ℚ → ℚ
  degrees : ℚ → ℚ
  sin : ℚ → ℚ
  cos : ℚ → ℚ
  sqrt : ℚ → ℚ
  atan2 : ℚ → ℚ → ℚ

/-- `_haversine_m` from the source (lines 136-144): great-circle distance in
meters, written with the fields of `MathApi` exactly as the source writes it
with the `math` module. -/
def _haversine_m (M : MathApi) (lat1 lon1 lat2 lon2 : ℚ) : ℚ :=
  let R : ℚ := 6371000
  let phi1 := M.radians lat1
  let phi2 := M.radians lat2
  let dphi := M.radians (lat2 - lat1)
  let dl := M.radians (lon2 - lon1)
  let a := (M.sin (dphi / 2)) ^ 2 + M.cos phi1 * M.cos phi2 * (M.sin (dl / 2)) ^ 2
  let c := 2 * M.atan2 (M.sqrt a) (M.sqrt (1 - a))
  R * c

/-- Python `str.isspace` characters relevant to `strip` and `\s` for the
ASCII range handled by the dataset. -/
def pyIsSpace (c : Char) : Bool :=
  c = ' ' ∨ c = '\t' ∨ c = '\n' ∨ c = '\x0d' ∨ c = '\x0b' ∨ c = '\x0c'

/-- Python `str.strip()` on a character list: drop leading and trailing
whitespace. -/
def stripChars (l : List Char) : List Char :=
  ((l.dropWhile pyIsSpace).reverse.dropWhile pyIsSpace).reverse

/-- Model of `re.sub(r"\s+", " ", n)`: replace every whitespace run by a
single space.  The boolean argument records whether the previous character
was part of a whitespace run. -/
def collapseGo : Bool → List Char → List Char
  | _, [] => []
  | prevWs, c :: rest =>
    if pyIsSpace c then
      if prevWs then collapseGo true rest else ' ' :: collapseGo true rest
    else c :: collapseGo false rest

/-- `_normalize_name` from the source (lines 123-126): strip, then collapse
whitespace runs to single spaces. -/
def _normalize_name (s : String) : String :=
  String.mk (collapseGo false (stripChars s.data))

/-- Characters kept by `re.sub(r"[^a-z0-9 ]+", "", n)` in `_name_key`. -/
def nameKeyChar (c : Char) : Bool :=
  ('a' ≤ c ∧ c ≤ 'z') ∨ ('0' ≤ c ∧ c ≤ '9') ∨ c = ' '

/-- `_name_key` from the source (lines 129-133): lowercase the normalized
name, strip characters outside `[a-z0-9 ]`, collapse whitespace, strip.
Python `str.lower()` is modelled by `Char.toLower`, which agrees with it on
the ASCII range. -/
def _name_key (s : String) : String :=
  let n := ((_normalize_name s).data.map Char.toLower).filter nameKeyChar
  String.mk (stripChars (collapseGo false n))

/-- Lexicographic order on code points, the order Python uses to compare
strings (here applied to lists of characters). -/
def lexLe : List Char → List Char → Bool
  | [], _ => true
  | _ :: _, [] => false
  | a :: as, b :: bs =>
    if a.toNat < b.toNat then true
    else if b.toNat < a.toNat then false
    else lexLe as bs

theorem lexLe_total (a b : List Char) : lexLe a b = true ∨ lexLe b a = true := by
  induction a generalizing b with
  | nil => left; rfl
  | cons x xs ih =>
    cases b with
    | nil => right; rfl
    | cons y ys =>
      by_cases h1 : x.toNat < y.toNat
      · left; simp [lexLe, h1]
      · by_cases h2 : y.toNat < x.toNat
        · right; simp [lexLe, h2]
        · rcases ih ys with h | h
          · left; simp [lexLe, h1, h2, h]
          · right; simp [lexLe, h1, h2, h]

theorem lexLe_trans {a b c : List Char} (hab : lexLe a b = true)
    (hbc : lexLe b c = true) : lexLe a c = true := by
  induction a generalizing b c with
  | nil => rfl
  | cons x xs ih =>
    cases b with
    | nil => simp [lexLe] at hab
    | cons y ys =>
      cases c with
      | nil => simp [lexLe] at hbc
      | cons z zs =>
        simp only [lexLe] at hab hbc ⊢
        by_cases hzy : z.toNat < y.toNat
        · simp [hzy, show ¬ y.toNat < z.toNat by omega] at hbc
        · by_cases hyx : y.toNat < x.toNat
          · simp [hyx, show ¬ x.toNat < y.toNat by omega] at hab
          · by_cases hyz : y.toNat < z.toNat
            · by_cases hxy : x.toNat < y.toNat
              · simp [show x.toNat < z.toNat by omega]
              · simp [show x.toNat < z.toNat by omega]
            · by_cases hxy : x.toNat < y.toNat
              · simp [show x.toNat < z.toNat by omega]
              · simp [hxy, hyx] at hab
                simp [hyz, hzy] at hbc
                simp [show ¬ x.toNat < z.toNat by omega,
                  show ¬ z.toNat < x.toNat by omega]
                exact ih hab hbc

/-- `[name, lat, lon, meta]`, the record format of the dataset
(`Record format` in the source header). -/
structure Course where
  name : String
  lat : ℚ
  lon : ℚ
  meta : String
  deriving DecidableEq

def cdefault : Course := ⟨"", 0, 0, ""⟩

/-- Comparison used by `kept.sort(key=lambda r: r[0].lower())`: ascending by
the lowercased label. -/
def leName (a b : Course) : Bool :=
  lexLe (a.name.data.map Char.toLower) (b.name.data.map Char.toLower)

theorem leName_total (a b : Course) : (leName a b || leName b a) = true := by
  rcases lexLe_total (a.name.data.map Char.toLower) (b.name.data.map Char.toLower) with h | h <;>
    simp [leName, h]

theorem leName_trans (a b c : Course) (h1 : leName a b = true)
    (h2 : leName b c = true) : leName a c = true :=
  lexLe_trans h1 h2

/-- The spatial bucket index of `dedupe_courses`: a grid cell maps to the
list of survivor indices inserted into it, in insertion order. -/
abbrev Buckets := ℤ × ℤ → List ℕ

/-- `grid = 0.002` (source line 361). -/
def grid : ℚ := 2 / 1000

/-- Python `int()` applied to a number: truncation toward zero. -/
def pyInt (q : ℚ) : ℤ := if 0 ≤ q then ⌊q⌋ else ⌈q⌉

/-- `bucket(lat, lon)` from the source (lines 363-364). -/
def bucket (lat lon : ℚ) : ℤ × ℤ := (pyInt (lat / grid), pyInt (lon / grid))

/-- The candidate list built by the two nested `for dx / for dy` loops
(source lines 371-373): all indices stored in the 3x3 neighborhood of the
incoming bucket. -/
def nbrs (bk : Buckets) (p : ℤ × ℤ) : List ℕ :=
  ([-1, 0, 1] : List ℤ).flatMap fun dx =>
    ([-1, 0, 1] : List ℤ).flatMap fun dy => bk (p.1 + dx, p.2 + dy)

/-- The inner candidate loop of `dedupe_courses` (source lines 376-388):
returns the index of the first examined survivor that absorbs `c`, skipping
a candidate when the distance exceeds 150.0 m or the name-key similarity is
below 0.88, exactly as the two `continue` tests of the source. -/
def findMerge (M : MathApi) (simFn : String → String → ℚ) (kept : List Course)
    (c : Course) : List ℕ → Option ℕ
  | [] => none
  | i :: rest =>
    let k := kept.getD i cdefault
    if 150 < _haversine_m M c.lat c.lon k.lat k.lon then
      findMerge M simFn kept c rest
    else if simFn (_name_key c.name) (_name_key k.name) < 88 / 100 then
      findMerge M simFn kept c rest
    else some i

/-- The mutable state of one `dedupe_courses` run: the `kept` list and the
bucket index. -/
structure DState where
  kept : List Course
  buckets : Buckets

def emptyD : DState := ⟨[], fun _ => []⟩

/-- One iteration of the `for c in courses` loop of `dedupe_courses`
(source lines 366-394): either the first matching survivor absorbs `c`
(upgrading its `meta` when the survivor has none and `c` does), or `c` is
appended as a new survivor and its index is registered in its bucket. -/
def dedupeStep (M : MathApi) (simFn : String → String → ℚ) (st : DState)
    (c : Course) : DState :=
  let b := bucket c.lat c.lon
  let cands := nbrs st.buckets b
  match findMerge M simFn st.kept c cands with
  | some i =>
    let k := st.kept.getD i cdefault
    if k.meta = "" ∧ c.meta ≠ "" then
      { st with kept := st.kept.set i ⟨k.name, k.lat, k.lon, c.meta⟩ }
    else st
  | none =>
    { kept := st.kept ++ [c],
      buckets := fun q => if q = b then st.buckets q ++ [st.kept.length] else st.buckets q }

/-- `dedupe_courses` from the source (lines 357-397), Policy A: fold the
step over the input in order, then sort by lowercased label. -/
def dedupe_courses (M : MathApi) (simFn : String → String → ℚ)
    (courses : List Course) : List Course :=
  ((courses.foldl (dedupeStep M simFn) emptyD).kept).mergeSort leName

/-- `[name, lat, lon, meta, rank, area_m2]`, the record shape consumed by
`dedupe_courses_ranked` (source line 402). -/
structure Ranked where
  name : String
  lat : ℚ
  lon : ℚ
  meta : String
  rank : ℤ
  area : ℚ
  deriving DecidableEq

/-- Drop rank and area, as `out.append([k[0], k[1], k[2], k[3]])` does
(source line 430). -/
def stripRanked (r : Ranked) : Course := ⟨r.name, r.lat, r.lon, r.meta⟩

/-- Append `r` to the group of key `k`, creating the group at the end when
the key is new: the behavior of `by_name.setdefault(nk, []).append(r)` on a
Python dict, whose iteration order is key insertion order. -/
def addToGroup (k : String) (r : Ranked) :
    List (String × List Ranked) → List (String × List Ranked)
  | [] => [(k, [r])]
  | (k0, rs) :: rest =>
    if k0 = k then (k0, rs ++ [r]) :: rest else (k0, rs) :: addToGroup k r rest

/-- The `by_name` grouping loop of `dedupe_courses_ranked`
(source lines 406-409). -/
def groupByKey (records : List Ranked) : List (String × List Ranked) :=
  records.foldl (fun acc r => addToGroup (_name_key r.name) r acc) []

/-- The comparison realized by
`items.sort(key=lambda r: (-int(r[4]), -float(r[5] or 0.0), r[0].lower(), r[1], r[2]))`
(source line 414): ascending lexicographic order on the five-component key,
so higher rank first, then larger area, then lowercased label, lat, lon. -/
def rankedLE (a b : Ranked) : Bool :=
  if a.rank = b.rank then
    if a.area = b.area then
      if a.name.data.map Char.toLower = b.name.data.map Char.toLower then
        if a.lat = b.lat then decide (a.lon ≤ b.lon) else decide (a.lat < b.lat)
      else lexLe (a.name.data.map Char.toLower) (b.name.data.map Char.toLower)
    else decide (b.area < a.area)
  else decide (b.rank < a.rank)

/-- The inner `for i, k in enumerate(kept)` loop of `dedupe_courses_ranked`
(source lines 419-427): the first survivor within 1000 m takes `r`, and is
replaced by `r` when `r` has strictly higher rank, or equal rank and
strictly larger area; otherwise `r` is appended. -/
def insertRanked (M : MathApi) (r : Ranked) : List Ranked → List Ranked
  | [] => [r]
  | k :: rest =>
    if _haversine_m M r.lat r.lon k.lat k.lon ≤ 1000 then
      (if r.rank > k.rank ∨ (r.rank = k.rank ∧ r.area > k.area) then r else k) :: rest
    else k :: insertRanked M r rest

/-- `dedupe_courses_ranked` from the source (lines 400-433), Policy B:
group by exact normalized name key, sort each group by quality, greedily
cluster within 1000 m, strip rank and area, and sort the concatenated
output by lowercased label. -/
def dedupe_courses_ranked (M : MathApi) (records : List Ranked) : List Course :=
  let out := (groupByKey records).foldl
    (fun acc g =>
      let items := (g.2).mergeSort rankedLE
      let kept := items.foldl (fun ks r => insertRanked M r ks) []
      acc ++ kept.map stripRanked) []
  out.mergeSort leName

/-- Tag dictionaries, with string values as in OSM data. -/
abbrev Tags := List (String × String)

/-- `tags.get(k) or ""`: the empty string stands for both a missing key and
an empty value, which the source treats alike through falsiness. -/
def tagGet (tags : Tags) (k : String) : String :=
  match tags.lookup k with
  | some v => v
  | none => ""

def excluded_golf : List String :=
  ["driving_range", "practice", "putting_green", "hole", "tee", "green"]

def excluded_leisure : List String := ["miniature_golf"]

/-- `is_excluded` from the source (lines 510-518). -/
def is_excluded (tags : Tags) : Bool :=
  if tagGet tags "leisure" ∈ excluded_leisure then true
  else if tagGet tags "golf" ∈ excluded_golf then true
  else if tagGet tags "golf" = "driving_range" then true
  else false

/-- `is_candidate` from the source (lines 520-540): strong tagging always
accepts; weak tagging (`sport=golf` with a generic area-use tag) accepts
only polygon-or-better geometry of at least 20000 square meters. -/
def is_candidate (tags : Tags) (geom_rank : ℤ) (area_m2 : ℚ) : Bool :=
  if is_excluded tags then false
  else
    let leisure := tagGet tags "leisure"
    let golf := tagGet tags "golf"
    let sport := tagGet tags "sport"
    let landuse := tagGet tags "landuse"
    if leisure = "golf_course" ∨ golf = "course" then true
    else if sport = "golf" then
      if (leisure = "pitch" ∨ leisure = "track") ∨ landuse = "recreation_ground" then
        decide (geom_rank ≥ 2 ∧ area_m2 ≥ 20000)
      else if leisure = "park" then
        decide (geom_rank ≥ 2 ∧ area_m2 ≥ 20000)
      else false
    else false

/-- Python `round(x, 5)` idealized on rationals: round half to even at five
decimal places. -/
def halfEven (r : ℚ) : ℤ :=
  let f := ⌊r⌋
  if r - f < 1 / 2 then f
  else if 1 / 2 < r - f then f + 1
  else if Even f then f else f + 1

def pyRound5 (q : ℚ) : ℚ := (halfEven (q * 100000) : ℚ) / 100000

/-- The local `proj` of `_polygon_centroid_area_m2` (source lines 231-236):
equirectangular projection of a `[lon, lat]` pair around `lat0`. -/
def projPt (M : MathApi) (lat0 : ℚ) (p : ℚ × ℚ) : ℚ × ℚ :=
  (6371000 * M.radians p.1 * M.cos lat0, 6371000 * M.radians p.2)

/-- The shoelace accumulation loop of `_polygon_centroid_area_m2`
(source lines 248-257) over consecutive projected points: returns
`(A2, Cx6, Cy6)`. -/
def shoelace : List (ℚ × ℚ) → ℚ × ℚ × ℚ
  | p0 :: p1 :: rest =>
    let s := shoelace (p1 :: rest)
    let cross := p0.1 * p1.2 - p1.1 * p0.2
    (s.1 + cross, s.2.1 + (p0.1 + p1.1) * cross, s.2.2 + (p0.2 + p1.2) * cross)
  | _ => (0, 0, 0)

/-- The mean latitude in radians computed at source line 229. -/
def ringLat0 (M : MathApi) (ring : List (ℚ × ℚ)) : ℚ :=
  M.radians ((ring.map Prod.snd).sum / (ring.map Prod.snd).length)

/-- The projected vertex list `pts` of source lines 238-243. -/
def ringPts (M : MathApi) (ring : List (ℚ × ℚ)) : List (ℚ × ℚ) :=
  ring.map (projPt M (ringLat0 M ring))

/-- `_polygon_centroid_area_m2` from the source (lines 215-274).  A ring is
a list of `[lon, lat]` pairs; the result is the optional `(lat, lon)`
representative point and the area in square meters.  Divisions by zero of
the source (a ring at the poles makes `cos(lat0)` zero) are total in `Rat`
and return 0. -/
def _polygon_centroid_area_m2 (M : MathApi) (ring : List (ℚ × ℚ)) :
    Option (ℚ × ℚ) × ℚ :=
  if ring.length < 4 then (none, 0)
  else
    let lat0 := ringLat0 M ring
    let pts := ringPts M ring
    let s := shoelace pts
    let a2 := s.1
    let p :=
      if |a2| < 1 / 1000000 then
        if pts.dropLast.length = 0 then none
        else some (((pts.dropLast.map Prod.fst).sum / pts.dropLast.length),
                   ((pts.dropLast.map Prod.snd).sum / pts.dropLast.length))
      else some (s.2.1 / (3 * a2), s.2.2 / (3 * a2))
    match p with
    | none => (none, 0)
    | some (cx, cy) =>
      let lon := cx / (6371000 * M.cos lat0)
      let lat := cy / 6371000
      (some (pyRound5 (M.degrees lat), pyRound5 (M.degrees lon)), |a2| / 2)

/-- `_geo_point_on_surface_from_coords` from the source (lines 206-212)
applied to multipolygon coordinates, the only shape `Handler.area` passes
it.  The source runs `first = coords[0][0]` and then `float(first[1])`;
`coords[0][0]` is an outer ring, so `first[1]` is a coordinate pair and
`float` of a list raises TypeError, which the bare `except` turns into
`(None, None)`.  The match below mirrors that evaluation: every branch is
an exception caught by the `except`, so no coordinate is ever produced. -/
def _geo_point_on_surface_from_coords
    (coords : List (List (List (ℚ × ℚ)))) : Option (ℚ × ℚ) :=
  match coords[0]? with
  | none => none
  | some poly =>
    match poly[0]? with
    | none => none
    | some ring =>
      match ring[1]? with
      | none => none
      | some _ => none

/-- The `for poly in coords` scan of `Handler.area` (source lines 612-628):
accumulates the total area of the outer rings and the centroid of the
largest ring seen so far, ring order breaking ties through the strict
comparison. -/
def areaScan (M : MathApi) (coords : List (List (List (ℚ × ℚ)))) :
    ℚ × ℚ × Option (ℚ × ℚ) :=
  coords.foldl
    (fun acc poly =>
      if poly = [] ∨ poly.headD [] = [] then acc
      else
        let ring := poly.headD []
        let r := _polygon_centroid_area_m2 M ring
        let total := acc.1 + r.2
        if r.2 > acc.2.1 ∧ r.1.isSome then (total, r.2, r.1)
        else (total, acc.2.1, acc.2.2))
    (0, 0, none)

/-- `Handler.area` from the source (lines 595-643), given the already
parsed multipolygon coordinates of the osmium GeoJSON factory, the tag
dictionary, whether the area derives from a closed way, and the country
code.  The error value records the TypeError that `math.isfinite(None)`
raises inside `_add` when no representative point was found. -/
def handlerArea (M : MathApi) (tags : Tags) (coords : List (List (List (ℚ × ℚ))))
    (fromWay : Bool) (code2 : String) : Except String (Option Ranked) :=
  let name := _normalize_name
    (if tagGet tags "name" ≠ "" then tagGet tags "name"
     else if tagGet tags "official_name" ≠ "" then tagGet tags "official_name"
     else if tagGet tags "alt_name" ≠ "" then tagGet tags "alt_name"
     else tagGet tags "name:en")
  if name = "" ∨ is_excluded tags then .ok none
  else if coords = [] then .ok none
  else
    let sc := areaScan M coords
    let total := sc.1
    let best := sc.2.2
    let pt := match best with
      | some p => some p
      | none => _geo_point_on_surface_from_coords coords
    let rank : ℤ := if fromWay then 2 else 3
    if ¬ is_candidate tags rank total then .ok none
    else
      match pt with
      | some (la, lo) => .ok (some ⟨name, pyRound5 la, pyRound5 lo, code2, rank, total⟩)
      | none => .error "TypeError: isfinite of None in add"

/-- Dynamic values as they occur in Overpass JSON elements: finite numbers,
the two non-finite float shapes, strings, None, lists and objects.  Numeric
strings that Python `float` would parse are represented upstream as `fin`;
the `str` constructor stands for non-numeric text. -/
inductive PyVal where
  | fin (q : ℚ)
  | nan
  | inf
  | str (s : String)
  | pynone
  | lst (xs : List PyVal)
  | dict (fields : List (String × PyVal))

/-- Python `dict.get(k)` with default None. -/
def dictGet (d : List (String × PyVal)) (k : String) : PyVal :=
  match d.lookup k with
  | some v => v
  | none => .pynone

/-- Result of a successful Python `float()` call. -/
inductive PyFloat where
  | val (q : ℚ)
  | nan
  | inf

/-- Python `float(x)` with its exception behavior: lists, dicts, None and
non-numeric strings raise; numbers pass through, keeping NaN and infinity
distinct from finite values for the later `math.isfinite` guard. -/
def pyFloatE : PyVal → Except String PyFloat
  | .fin q => .ok (.val q)
  | .nan => .ok .nan
  | .inf => .ok .inf
  | .str _ => .error "ValueError: float of non numeric string"
  | .pynone => .error "TypeError: float of NoneType"
  | .lst _ => .error "TypeError: float of list"
  | .dict _ => .error "TypeError: float of dict"

/-- `math.isfinite` on a float value. -/
def isFiniteF : PyFloat → Bool
  | .val _ => true
  | _ => false

/-- Python truthiness of a dynamic value. -/
def pyTruthy : PyVal → Bool
  | .fin q => q ≠ 0
  | .nan => true
  | .inf => true
  | .str s => s ≠ ""
  | .pynone => false
  | .lst [] => false
  | .lst (_ :: _) => true
  | .dict [] => false
  | .dict (_ :: _) => true

/-- `_centroid_from_geom` from the source (lines 162-181): mean of the
finite coordinates of the well-formed geometry entries.  An entry that is
not an object, misses a field, or carries an unparsable or non-finite
coordinate is skipped, as the `try ... except: continue` and the
`isfinite` guard of the source do. -/
def _centroid_from_geom (geom : PyVal) : Option ℚ × Option ℚ :=
  match geom with
  | .lst ps =>
    let acc := ps.foldl
      (fun (acc : ℚ × ℚ × ℕ) p =>
        match p with
        | .dict d =>
          match pyFloatE (dictGet d "lat"), pyFloatE (dictGet d "lon") with
          | .ok (.val la), .ok (.val lo) => (acc.1 + la, acc.2.1 + lo, acc.2.2 + 1)
          | .ok _, .ok _ => acc
          | _, _ => acc
        | _ => acc)
      (0, 0, 0)
    if acc.2.2 = 0 then (none, none)
    else (some (acc.1 / acc.2.2), some (acc.2.1 / acc.2.2))
  | _ => (none, none)

/-- One Overpass element as consumed by `extract_courses`: a JSON object
whose fields may each be missing and may hold arbitrary dynamic values,
including a non-object `tags` or `center` and non-string tag values. -/
structure OElement where
  type : Option String
  tags : Option PyVal
  lat : Option PyVal
  lon : Option PyVal
  geometry : Option PyVal
  center : Option PyVal

/-- `tags = el.get("tags") or {}` followed by the immediate attribute
access `tags.get(...)` (source lines 324-325): a falsy value is replaced
by the empty dict, but a truthy value that is not a dict raises
AttributeError at `.get`. -/
def tagsDictE (el : OElement) : Except String (List (String × PyVal)) :=
  let t := el.tags.getD .pynone
  if pyTruthy t then
    match t with
    | .dict d => .ok d
    | _ => .error "AttributeError: get on non dict"
  else .ok []

/-- The value chain `a or b or c or ""` of source line 325: the first
truthy value, else the empty string. -/
def orChain : List PyVal → PyVal
  | [] => .str ""
  | v :: rest => if pyTruthy v then v else orChain rest

/-- `_normalize_name` (source lines 123-126) applied to a dynamic tag
value: `(name or "").strip()` turns a falsy value into the empty string
and normalizes a string, but raises AttributeError at `.strip()` for a
truthy value that is not a string. -/
def normalizeE (v : PyVal) : Except String String :=
  if pyTruthy v then
    match v with
    | .str s => .ok (_normalize_name s)
    | _ => .error "AttributeError: strip on non string"
  else .ok ""

/-- `center = el.get("center") or {}` followed by `center.get(k)` (source
lines 339-341): raises AttributeError for a truthy non-dict center. -/
def centerValE (el : OElement) (k : String) : Except String PyVal :=
  let cv := el.center.getD .pynone
  if pyTruthy cv then
    match cv with
    | .dict d => .ok (dictGet d k)
    | _ => .error "AttributeError: get on non dict"
  else .ok .pynone

/-- `_pick_meta` from the source (lines 151-159) over dynamic tag values:
the `isinstance(v, str)` guard makes it total — it returns the first
non-empty stripped string value among the admin keys. -/
def pickMetaGo (tags : List (String × PyVal)) : List String → String
  | [] => ""
  | k :: rest =>
    match dictGet tags k with
    | .str s =>
      if s ≠ "" then
        let vs := String.mk (stripChars s.data)
        if vs ≠ "" then vs else pickMetaGo tags rest
      else pickMetaGo tags rest
    | _ => pickMetaGo tags rest

def _pick_meta (tags : List (String × PyVal)) : String :=
  pickMetaGo tags
    ["addr:county", "addr:state", "addr:city", "addr:town", "addr:village",
     "is_in:county", "is_in:state", "is_in"]

/-- The coordinate resolution of `extract_courses` (source lines 329-341):
direct fields for nodes, else the geometry centroid, else the `center`
fallback, whose dict access can raise. -/
def resolveLatLonE (el : OElement) : Except String (PyVal × PyVal) :=
  if el.type = some "node" then .ok (el.lat.getD .pynone, el.lon.getD .pynone)
  else
    let g := el.geometry.getD .pynone
    let cg := if pyTruthy g then _centroid_from_geom g else (none, none)
    match cg with
    | (some a, some o) => .ok (.fin a, .fin o)
    | _ => do
      let la ← centerValE el "lat"
      let lo ← centerValE el "lon"
      pure (la, lo)

/-- The body of the `for el in elements` loop of `extract_courses`
(source lines 323-352), with the exception behavior of every fallible
Python operation made explicit: an `.error` value is an uncaught exception
of the source.  The `float()` calls sit inside the `try ... except:
continue` of lines 343-347, so their failures yield `none`; the tag-dict
access, the name normalization and the center access are unguarded. -/
def extractOneE (el : OElement) : Except String (Option Course) := do
  let tags ← tagsDictE el
  let name ← normalizeE
    (orChain [dictGet tags "name", dictGet tags "name:en", dictGet tags "operator"])
  if name = "" then pure none
  else do
    let latlon ← resolveLatLonE el
    match pyFloatE latlon.1, pyFloatE latlon.2 with
    | .ok (.val a), .ok (.val o) =>
      pure (some ⟨name, pyRound5 a, pyRound5 o, _pick_meta tags⟩)
    | .ok _, .ok _ => pure none
    | _, _ => pure none

/-- `extract_courses` from the source (lines 320-354): process the elements
in order, collecting the extracted records, then deduplicate with
Policy A.  An `.error` of any element propagates to the caller. -/
def extract_coursesE (M : MathApi) (simFn : String → String → ℚ)
    (els : List OElement) : Except String (List Course) := do
  let raw ← els.foldlM
    (fun acc el => do
      let r ← extractOneE el
      pure (match r with
        | some c => acc ++ [c]
        | none => acc)) []
  pure (dedupe_courses M simFn raw)

theorem mergeSort_pair {α : Type} (le : α → α → Bool) (a b : α) :
    List.mergeSort [a, b] le = if le a b then [a, b] else [b, a] := by
  simp [List.mergeSort, List.merge]

theorem mergeSort_single {α : Type} (le : α → α → Bool) (a : α) :
    List.mergeSort [a] le = [a] := by
  simp [List.mergeSort]

/-- C1: in Policy A, an examined survivor absorbs the incoming record
exactly when the haversine distance is at most 150.0 m and the name-key
similarity is at least 0.88; both boundaries are inclusive (at 150.0 m and
similarity 0.88 the pair merges, above 150.0 m or below 0.88 the candidate
is skipped and the search moves on). -/
theorem dedupe_absorbs_iff (M : MathApi) (simFn : String → String → ℚ)
    (kept : List Course) (c : Course) (i : ℕ) (rest : List ℕ) :
    findMerge M simFn kept c (i :: rest) =
      if _haversine_m M c.lat c.lon (kept.getD i cdefault).lat (kept.getD i cdefault).lon ≤ 150 ∧
          88 / 100 ≤ simFn (_name_key c.name) (_name_key (kept.getD i cdefault).name)
      then some i
      else findMerge M simFn kept c rest := by
  set k := kept.getD i cdefault with hk
  by_cases h1 : 150 < _haversine_m M c.lat c.lon k.lat k.lon
  · rw [findMerge]
    simp only [← hk, if_pos h1]
    rw [if_neg]
    intro h
    exact absurd h.1 (not_le.mpr h1)
  · by_cases h2 : simFn (_name_key c.name) (_name_key k.name) < 88 / 100
    · rw [findMerge]
      simp only [← hk, if_neg h1, if_pos h2]
      rw [if_neg]
      intro h
      exact absurd h.2 (not_le.mpr h2)
    · rw [findMerge]
      simp only [← hk, if_neg h1, if_neg h2]
      rw [if_pos ⟨not_lt.mp h1, not_lt.mp h2⟩]

/-- C8: a tag set with only weak golf tagging (sport=golf together with a
generic area-use tag, no strong tag, not excluded) is accepted by
`is_candidate` exactly when the geometry rank is at least 2 and the area is
at least 20000 square meters; in particular point geometry (rank 1) is
always rejected. -/
theorem weak_tagging_iff (tags : Tags) (rank : ℤ) (area : ℚ)
    (hsport : tagGet tags "sport" = "golf")
    (harea : tagGet tags "leisure" = "pitch" ∨ tagGet tags "leisure" = "track" ∨
      tagGet tags "leisure" = "park" ∨ tagGet tags "landuse" = "recreation_ground")
    (hnsL : tagGet tags "leisure" ≠ "golf_course")
    (hnsG : tagGet tags "golf" ≠ "course")
    (hexcl : is_excluded tags = false) :
    (is_candidate tags rank area = true ↔ 2 ≤ rank ∧ 20000 ≤ area) ∧
      is_candidate tags 1 area = false := by
  have key : ∀ r : ℤ, is_candidate tags r area = decide (r ≥ 2 ∧ area ≥ 20000) := by
    intro r
    rcases harea with h | h | h | h
    · simp [is_candidate, hexcl, hsport, hnsL, hnsG, h]
    · simp [is_candidate, hexcl, hsport, hnsL, hnsG, h]
    · by_cases hl : tagGet tags "landuse" = "recreation_ground"
      · simp [is_candidate, hexcl, hsport, hnsL, hnsG, h, hl]
      · simp [is_candidate, hexcl, hsport, hnsL, hnsG, h, hl]
    · simp [is_candidate, hexcl, hsport, hnsL, hnsG, h]
  constructor
  · rw [key rank]
    simp [ge_iff_le, and_comm]
  · rw [key 1]
    simp

/-- Witness for C8 at concrete inputs: a pitch tagged sport=golf of exactly
20000 square meters is accepted at rank 2 and rejected at rank 1. -/
theorem weak_tagging_iff_witness :
    (is_candidate [("sport", "golf"), ("leisure", "pitch")] 2 20000 = true ↔
      (2 : ℤ) ≤ 2 ∧ (20000 : ℚ) ≤ 20000) ∧
      is_candidate [("sport", "golf"), ("leisure", "pitch")] 1 20000 = false :=
  weak_tagging_iff [("sport", "golf"), ("leisure", "pitch")] 2 20000
    (by decide) (Or.inl (by decide)) (by decide) (by decide) (by decide)

/-- Instantiation of the math parameters used for concrete evaluations:
a linear radian conversion and constant values for the transcendental
functions. -/
def trigEx : MathApi :=
  { radians := fun x => x / 1000000000, degrees := fun x => x,
    sin := fun _ => 0, cos := fun _ => 1, sqrt := fun _ => 0,
    atan2 := fun _ _ => 0 }

/-- A closed ring (first vertex equals last, four entries) that is almost
collapsed: its projected doubled signed area is tiny but not zero. -/
def ringEx : List (ℚ × ℚ) := [(0, 0), (1, 0), (1, 1 / 100), (0, 0)]

/-- C3 counterexample: a closed ring whose doubled signed area `A2` is
below the near-zero threshold `1e-6` yet nonzero; the resolver returns
area `|A2| / 2`, which is not exactly 0.0 as the claim states. -/
theorem degenerate_ring_area_not_zero :
    4 ≤ ringEx.length ∧ ringEx.head? = ringEx.getLast? ∧
    |(shoelace (ringPts trigEx ringEx)).1| < 1 / 1000000 ∧
    (_polygon_centroid_area_m2 trigEx ringEx).2 ≠ 0 := by
  refine ⟨by norm_num [ringEx], by norm_num [ringEx], ?_, ?_⟩
  · norm_num [shoelace, ringPts, ringLat0, projPt, trigEx, ringEx, abs]
  · norm_num [_polygon_centroid_area_m2, shoelace, ringPts, ringLat0, projPt,
      trigEx, ringEx, abs]

/-- C3 (amended): for every ring of at least four vertices whose projected
doubled signed area `A2` is below the `1e-6` degeneracy threshold, the
resolver returns, without raising, the unweighted mean of the distinct
vertices (computed on projected coordinates, inverted back to degrees and
rounded to five decimals) as the representative point, and returns area
`|A2| / 2` — zero exactly when the signed area is exactly zero, not
unconditionally 0.0. -/
theorem degenerate_ring_mean_fallback (M : MathApi) (ring : List (ℚ × ℚ))
    (hlen : 4 ≤ ring.length)
    (hdeg : |(shoelace (ringPts M ring)).1| < 1 / 1000000) :
    _polygon_centroid_area_m2 M ring =
      (some (pyRound5 (M.degrees ((((ringPts M ring).dropLast.map Prod.snd).sum /
                ((ringPts M ring).dropLast.length : ℚ)) / 6371000)),
             pyRound5 (M.degrees ((((ringPts M ring).dropLast.map Prod.fst).sum /
                ((ringPts M ring).dropLast.length : ℚ)) /
                (6371000 * M.cos (ringLat0 M ring))))),
       |(shoelace (ringPts M ring)).1| / 2) ∧
    ((_polygon_centroid_area_m2 M ring).2 = 0 ↔ (shoelace (ringPts M ring)).1 = 0) := by
  have hlen2 : ¬ ring.length < 4 := by omega
  have hplen : ¬ (ringPts M ring).dropLast.length = 0 := by
    simp [ringPts]
    omega
  have h1 : _polygon_centroid_area_m2 M ring =
      (some (pyRound5 (M.degrees ((((ringPts M ring).dropLast.map Prod.snd).sum /
                ((ringPts M ring).dropLast.length : ℚ)) / 6371000)),
             pyRound5 (M.degrees ((((ringPts M ring).dropLast.map Prod.fst).sum /
                ((ringPts M ring).dropLast.length : ℚ)) /
                (6371000 * M.cos (ringLat0 M ring))))),
       |(shoelace (ringPts M ring)).1| / 2) := by
    simp only [_polygon_centroid_area_m2, if_neg hlen2, if_pos hdeg, if_neg hplen]
  refine ⟨h1, ?_⟩
  rw [h1]
  simp [abs_eq_zero]

/-- Witness for the amended C3 theorem at the concrete degenerate ring. -/
theorem degenerate_ring_mean_fallback_witness :
    4 ≤ ringEx.length ∧
    ((_polygon_centroid_area_m2 trigEx ringEx).2 = 0 ↔
      (shoelace (ringPts trigEx ringEx)).1 = 0) :=
  ⟨by norm_num [ringEx],
   (degenerate_ring_mean_fallback trigEx ringEx (by norm_num [ringEx])
     (by norm_num [shoelace, ringPts, ringLat0, projPt, trigEx, ringEx, abs])).2⟩

/-- A strongly tagged feature name for the multi-ring handler. -/
def tagsC7 : Tags := [("name", "X"), ("leisure", "golf_course")]

/-- Multipolygon coordinates with a single degenerate outer ring (three
positions), so no ring yields a valid centroid. -/
def coordsC7 : List (List (List (ℚ × ℚ))) := [[[(0, 0), (1, 0), (0, 0)]]]

/-- C7: evaluation of `Handler.area` at a multi-ring feature none of whose
rings yields a valid centroid.  The claim (and the source comment
`Fallback: stable first coordinate`) promise the first available vertex,
here `(0, 0)`; the code instead runs `float` on a coordinate pair inside
`_geo_point_on_surface_from_coords`, the bare `except` yields
`(None, None)`, and `math.isfinite(None)` inside `_add` raises TypeError. -/
theorem area_fallback_raises :
    handlerArea trigEx tagsC7 coordsC7 false "ES" =
      .error "TypeError: isfinite of None in add" := by
  simp +decide [handlerArea, areaScan, _polygon_centroid_area_m2,
    _geo_point_on_surface_from_coords, is_candidate, is_excluded, tagGet,
    List.lookup, tagsC7, coordsC7, _normalize_name, stripChars, collapseGo,
    pyIsSpace, excluded_leisure, excluded_golf]

/-- C2: in Policy B, for two records with identical normalized name key
within 1000 m, the survivor is the one with the higher rank regardless of
area, and on a rank tie the one with the larger area — in either input
order. -/
theorem ranked_higher_rank_survives (M : MathApi) (r s : Ranked)
    (hkey : _name_key r.name = _name_key s.name)
    (hbetter : s.rank < r.rank ∨ (r.rank = s.rank ∧ s.area < r.area))
    (hdist : _haversine_m M s.lat s.lon r.lat r.lon ≤ 1000) :
    dedupe_courses_ranked M [r, s] = [stripRanked r] ∧
    dedupe_courses_ranked M [s, r] = [stripRanked r] := by
  have hle_rs : rankedLE r s = true := by
    rcases hbetter with h | ⟨heq, harea⟩
    · simp [rankedLE, show ¬ r.rank = s.rank by omega, h]
    · simp [rankedLE, heq, ne_of_gt harea, harea]
  have hle_sr : rankedLE s r = false := by
    rcases hbetter with h | ⟨heq, harea⟩
    · simp [rankedLE, show ¬ s.rank = r.rank by omega, show ¬ r.rank < s.rank by omega]
    · simp [rankedLE, heq.symm, ne_of_lt harea, show ¬ r.area < s.area by linarith]
  have hnotbetter : ¬ (s.rank > r.rank ∨ (s.rank = r.rank ∧ s.area > r.area)) := by
    rintro (h2 | ⟨heq2, ha2⟩)
    · rcases hbetter with h | ⟨heq, harea⟩ <;> omega
    · rcases hbetter with h | ⟨heq, harea⟩
      · omega
      · linarith
  constructor
  · simp only [dedupe_courses_ranked, groupByKey, List.foldl, addToGroup,
      if_pos hkey, List.cons_append, List.nil_append]
    rw [mergeSort_pair, if_pos hle_rs]
    simp only [List.foldl, insertRanked, if_pos hdist, if_neg hnotbetter,
      List.map, stripRanked, List.nil_append]
    rw [mergeSort_single]
  · simp only [dedupe_courses_ranked, groupByKey, List.foldl, addToGroup,
      if_pos hkey.symm, List.cons_append, List.nil_append]
    rw [mergeSort_pair, hle_sr]
    simp only [if_false, List.foldl, insertRanked, if_pos hdist, if_neg hnotbetter,
      List.map, stripRanked, List.nil_append]
    rw [mergeSort_single]

/-- A relation-derived record: rank 3, area 500. -/
def rankedHigh : Ranked := ⟨"Pine Valley", 0, 0, "", 3, 500⟩

/-- A way-derived record with the same name: rank 2, area 10000000. -/
def rankedBig : Ranked := ⟨"Pine Valley", 0, 0, "", 2, 10000000⟩

/-- Witness for C2 on the example of the claim: the rank-3 record with area
500 survives over the rank-2 record with area 10,000,000. -/
theorem ranked_higher_rank_survives_witness :
    dedupe_courses_ranked trigEx [rankedHigh, rankedBig] = [stripRanked rankedHigh] ∧
    dedupe_courses_ranked trigEx [rankedBig, rankedHigh] = [stripRanked rankedHigh] :=
  ranked_higher_rank_survives trigEx rankedHigh rankedBig rfl
    (Or.inl (by norm_num [rankedHigh, rankedBig]))
    (by norm_num [_haversine_m, trigEx])

/-- C9: both dedup policies end with
`sort(key=lambda r: r[0].lower())`, so every output is sorted ascending by
lowercased label. -/
theorem dedupe_output_sorted (M : MathApi) (simFn : String → String → ℚ)
    (courses : List Course) (records : List Ranked) :
    List.Pairwise (fun a b => leName a b = true) (dedupe_courses M simFn courses) ∧
    List.Pairwise (fun a b => leName a b = true) (dedupe_courses_ranked M records) := by
  constructor
  · exact List.sorted_mergeSort leName_trans leName_total _
  · exact List.sorted_mergeSort leName_trans leName_total _

theorem dedupeStep_eq_merge {M : MathApi} {simFn : String → String → ℚ}
    {st : DState} {c : Course} {i : ℕ}
    (hfm : findMerge M simFn st.kept c (nbrs st.buckets (bucket c.lat c.lon)) = some i) :
    dedupeStep M simFn st c =
      if (st.kept.getD i cdefault).meta = "" ∧ c.meta ≠ "" then
        DState.mk (st.kept.set i (Course.mk (st.kept.getD i cdefault).name (st.kept.getD i cdefault).lat (st.kept.getD i cdefault).lon c.meta)) st.buckets
      else st := by
  simp only [dedupeStep, hfm]

theorem dedupeStep_eq_append {M : MathApi} {simFn : String → String → ℚ}
    {st : DState} {c : Course}
    (hfm : findMerge M simFn st.kept c (nbrs st.buckets (bucket c.lat c.lon)) = none) :
    dedupeStep M simFn st c =
      { kept := st.kept ++ [c],
        buckets := fun q => if q = bucket c.lat c.lon then
          st.buckets q ++ [st.kept.length] else st.buckets q } := by
  simp only [dedupeStep, hfm]

/-- Field provenance of a dedupe survivor: label and coordinates come from
one input record, the meta string from some (possibly different) input
record. -/
def Prov (src : List Course) (k : Course) : Prop :=
  (∃ c ∈ src, k.name = c.name ∧ k.lat = c.lat ∧ k.lon = c.lon) ∧
    ∃ c ∈ src, k.meta = c.meta

theorem prov_step (M : MathApi) (simFn : String → String → ℚ)
    (src : List Course) (st : DState) (c : Course)
    (hst : ∀ k ∈ st.kept, Prov src k) (hc : c ∈ src) :
    ∀ k ∈ (dedupeStep M simFn st c).kept, Prov src k := by
  intro k hk
  rcases hfm : findMerge M simFn st.kept c (nbrs st.buckets (bucket c.lat c.lon)) with _ | i
  · rw [dedupeStep_eq_append hfm] at hk
    rcases List.mem_append.mp hk with h | h
    · exact hst k h
    · have : k = c := by simpa using h
      subst this
      exact ⟨⟨k, hc, rfl, rfl, rfl⟩, ⟨k, hc, rfl⟩⟩
  · rw [dedupeStep_eq_merge hfm] at hk
    by_cases hcond : (st.kept.getD i cdefault).meta = "" ∧ c.meta ≠ ""
    · rw [if_pos hcond] at hk
      by_cases hi : i < st.kept.length
      · rcases List.mem_or_eq_of_mem_set hk with h | h
        · exact hst k h
        · subst h
          have hgetd : st.kept.getD i cdefault = st.kept[i] := by
            rw [List.getD_eq_getElem?_getD, List.getElem?_eq_getElem hi]
            rfl
          have hg : st.kept.getD i cdefault ∈ st.kept := by
            rw [hgetd]; exact List.getElem_mem hi
          obtain ⟨⟨c1, hc1, hn, hla, hlo⟩, _⟩ := hst _ hg
          exact ⟨⟨c1, hc1, hn, hla, hlo⟩, ⟨c, hc, rfl⟩⟩
      · rw [List.set_eq_of_length_le (le_of_not_lt hi)] at hk
        exact hst k hk
    · rw [if_neg hcond] at hk
      exact hst k hk

theorem prov_fold (M : MathApi) (simFn : String → String → ℚ)
    (src : List Course) :
    ∀ (l : List Course) (st : DState),
      (∀ k ∈ st.kept, Prov src k) → (∀ c ∈ l, c ∈ src) →
      ∀ k ∈ (l.foldl (dedupeStep M simFn) st).kept, Prov src k := by
  intro l
  induction l with
  | nil => intro st h _; simpa using h
  | cons c l ih =>
    intro st hst hl
    rw [List.foldl_cons]
    exact ih _ (prov_step M simFn src st c hst (hl c (List.mem_cons_self c l)))
      fun d hd => hl d (List.mem_cons_of_mem c hd)

theorem prov_of_mem_dedupe (M : MathApi) (simFn : String → String → ℚ)
    (src : List Course) (k : Course) (hk : k ∈ dedupe_courses M simFn src) :
    Prov src k := by
  have hmem : k ∈ (src.foldl (dedupeStep M simFn) emptyD).kept := by
    have := hk
    unfold dedupe_courses at this
    exact List.mem_mergeSort.mp this
  exact prov_fold M simFn src src emptyD (by simp [emptyD]) (fun c h => h) k hmem

/-- C10: every record in the output of `dedupe_courses` has its label, lat
and lon exactly equal to those of a single input record, and its meta equal
to the meta of some (possibly different) input record. -/
theorem dedupe_provenance (M : MathApi) (simFn : String → String → ℚ)
    (src : List Course) (k : Course) (hk : k ∈ dedupe_courses M simFn src) :
    (∃ c ∈ src, k.name = c.name ∧ k.lat = c.lat ∧ k.lon = c.lon) ∧
      ∃ c ∈ src, k.meta = c.meta :=
  prov_of_mem_dedupe M simFn src k hk

/-- Constant similarity used for concrete evaluations, standing for a pair
of names whose similarity is 1. -/
def sim0 : String → String → ℚ := fun _ _ => 1

theorem dedupe_single (M : MathApi) (simFn : String → String → ℚ) (c : Course) :
    dedupe_courses M simFn [c] = [c] := by
  have hfm : findMerge M simFn emptyD.kept c
      (nbrs emptyD.buckets (bucket c.lat c.lon)) = none := by
    simp [nbrs, emptyD, findMerge]
  simp only [dedupe_courses, List.foldl, dedupeStep_eq_append hfm]
  simp only [emptyD, List.nil_append]
  exact mergeSort_single leName c

/-- A concrete course record. -/
def courseEx : Course := ⟨"Pine Valley GC", 398 / 10, -7493 / 100, "NJ"⟩

/-- Witness for C10 at a singleton input. -/
theorem dedupe_provenance_witness :
    courseEx ∈ dedupe_courses trigEx sim0 [courseEx] ∧
    ((∃ c ∈ [courseEx], courseEx.name = c.name ∧ courseEx.lat = c.lat ∧
        courseEx.lon = c.lon) ∧ ∃ c ∈ [courseEx], courseEx.meta = c.meta) := by
  have hmem : courseEx ∈ dedupe_courses trigEx sim0 [courseEx] := by
    rw [dedupe_single]
    exact List.mem_cons_self courseEx []
  exact ⟨hmem, dedupe_provenance trigEx sim0 [courseEx] courseEx hmem⟩

/-- C4: when a survivor absorbs an incoming record in Policy A, the output
list keeps its length (the absorbed record contributes no new entry), the
survivor keeps its label, lat and lon, its meta is replaced by the
incoming meta exactly when the survivor meta is empty and the incoming one
is not, every other survivor is untouched, and the bucket index is
unchanged. -/
theorem absorb_updates_meta_only (M : MathApi) (simFn : String → String → ℚ)
    (st : DState) (c : Course) (i : ℕ) (hi : i < st.kept.length)
    (hm : findMerge M simFn st.kept c (nbrs st.buckets (bucket c.lat c.lon)) = some i) :
    (dedupeStep M simFn st c).kept.length = st.kept.length ∧
    ((dedupeStep M simFn st c).kept.getD i cdefault).name = (st.kept.getD i cdefault).name ∧
    ((dedupeStep M simFn st c).kept.getD i cdefault).lat = (st.kept.getD i cdefault).lat ∧
    ((dedupeStep M simFn st c).kept.getD i cdefault).lon = (st.kept.getD i cdefault).lon ∧
    ((dedupeStep M simFn st c).kept.getD i cdefault).meta =
      (if (st.kept.getD i cdefault).meta = "" ∧ c.meta ≠ "" then c.meta
       else (st.kept.getD i cdefault).meta) ∧
    (∀ j, j ≠ i → (dedupeStep M simFn st c).kept.getD j cdefault = st.kept.getD j cdefault) ∧
    (dedupeStep M simFn st c).buckets = st.buckets := by
  rw [dedupeStep_eq_merge hm]
  by_cases hcond : (st.kept.getD i cdefault).meta = "" ∧ c.meta ≠ ""
  · rw [if_pos hcond, if_pos hcond]
    have hgi : (st.kept.set i (Course.mk (st.kept.getD i cdefault).name
        (st.kept.getD i cdefault).lat (st.kept.getD i cdefault).lon c.meta)).getD i cdefault =
        Course.mk (st.kept.getD i cdefault).name (st.kept.getD i cdefault).lat
          (st.kept.getD i cdefault).lon c.meta := by
      rw [List.getD_eq_getElem?_getD, List.getElem?_set, if_pos rfl, if_pos hi]
      rfl
    refine ⟨List.length_set st.kept i _, ?_, ?_, ?_, ?_, ?_, rfl⟩
    · rw [hgi]
    · rw [hgi]
    · rw [hgi]
    · rw [hgi]
    · intro j hj
      rw [List.getD_eq_getElem?_getD, List.getElem?_set, if_neg (fun h => hj h.symm),
        ← List.getD_eq_getElem?_getD]
  · rw [if_neg hcond, if_neg hcond]
    exact ⟨rfl, rfl, rfl, rfl, rfl, fun _ _ => rfl, rfl⟩

/-- A one-survivor state whose only record sits in bucket `(0, 0)` with an
empty meta. -/
def stEx : DState :=
  DState.mk [Course.mk "Pine Valley Golf Club" 0 0 ""]
    (fun q => if q = ((0 : ℤ), (0 : ℤ)) then [0] else [])

/-- The incoming record for the C4 witness: same place, non-empty meta. -/
def cEx : Course := ⟨"Pine Valley GC", 0, 0, "NJ"⟩

theorem findMerge_stEx :
    findMerge trigEx sim0 stEx.kept cEx (nbrs stEx.buckets (bucket cEx.lat cEx.lon)) =
      some 0 := by
  have hb : bucket cEx.lat cEx.lon = ((0 : ℤ), (0 : ℤ)) := by
    simp [bucket, cEx, pyInt, grid]
  rw [hb]
  have hn : nbrs stEx.buckets ((0 : ℤ), (0 : ℤ)) = [0] := by
    simp +decide [nbrs, stEx, List.flatMap]
  rw [hn, findMerge]
  rw [if_neg (by norm_num [_haversine_m, trigEx]), if_neg (by norm_num [sim0])]

/-- Witness for C4: the surviving record keeps its label and coordinates
and takes the incoming meta NJ, and nothing is appended. -/
theorem absorb_updates_meta_only_witness :
    (dedupeStep trigEx sim0 stEx cEx).kept.length = stEx.kept.length ∧
    ((dedupeStep trigEx sim0 stEx cEx).kept.getD 0 cdefault).name =
      (stEx.kept.getD 0 cdefault).name ∧
    ((dedupeStep trigEx sim0 stEx cEx).kept.getD 0 cdefault).lat =
      (stEx.kept.getD 0 cdefault).lat ∧
    ((dedupeStep trigEx sim0 stEx cEx).kept.getD 0 cdefault).lon =
      (stEx.kept.getD 0 cdefault).lon ∧
    ((dedupeStep trigEx sim0 stEx cEx).kept.getD 0 cdefault).meta =
      (if (stEx.kept.getD 0 cdefault).meta = "" ∧ cEx.meta ≠ "" then cEx.meta
       else (stEx.kept.getD 0 cdefault).meta) ∧
    (∀ j, j ≠ 0 → (dedupeStep trigEx sim0 stEx cEx).kept.getD j cdefault =
      stEx.kept.getD j cdefault) ∧
    (dedupeStep trigEx sim0 stEx cEx).buckets = stEx.buckets :=
  absorb_updates_meta_only trigEx sim0 stEx cEx 0 (by simp [stEx]) findMerge_stEx

/-- An element whose `tags` field is a truthy non-dict value. -/
def elBadTags : OElement :=
  ⟨some "node", some (.str "golf"), some (.fin 0), some (.fin 0), none, none⟩

/-- An element whose name tag value is a number rather than a string. -/
def elBadName : OElement :=
  ⟨some "node", some (.dict [("name", .fin 5)]), some (.fin 0), some (.fin 0), none, none⟩

/-- C6: evaluation of `extract_courses` at elements that are individually
malformed while the collection itself is a perfectly iterable list.  A
truthy non-dict `tags` value makes `tags.get("name")` raise
AttributeError (the `or {}` only replaces falsy values), and a numeric
name tag value reaches `(name or "").strip()` inside `_normalize_name`
and raises AttributeError — so the claim that an exception can arise only
when the whole collection is structurally invalid is false of the code. -/
theorem extract_raises_on_malformed_element :
    extract_coursesE trigEx sim0 [elBadTags] =
      .error "AttributeError: get on non dict" ∧
    extract_coursesE trigEx sim0 [elBadName] =
      .error "AttributeError: strip on non string" := by
  constructor
  · rfl
  · have h5 : ¬ ((5 : ℚ) = 0) := by norm_num
    simp +decide [extract_coursesE, extractOneE, tagsDictE, orChain, normalizeE,
      pyTruthy, dictGet, elBadName, List.lookup, Bind.bind, Except.bind, h5]

/-- The fields of a survivor that the merge test and the spatial index
read; the `meta` field takes no part in either. -/
def coreOf (x : Course) : String × ℚ × ℚ := (x.name, x.lat, x.lon)

def bucketC (a : String × ℚ × ℚ) : ℤ × ℤ := bucket a.2.1 a.2.2

def passC (M : MathApi) (simFn : String → String → ℚ) (a b : String × ℚ × ℚ) : Prop :=
  _haversine_m M a.2.1 a.2.2 b.2.1 b.2.2 ≤ 150 ∧
    88 / 100 ≤ simFn (_name_key a.1) (_name_key b.1)

def adjB (p q : ℤ × ℤ) : Prop := (p.1 - q.1).natAbs ≤ 1 ∧ (p.2 - q.2).natAbs ≤ 1

def pairSepC (M : MathApi) (simFn : String → String → ℚ) (a b : String × ℚ × ℚ) : Prop :=
  adjB (bucketC a) (bucketC b) → ¬ passC M simFn a b ∧ ¬ passC M simFn b a

theorem adjB_symm {p q : ℤ × ℤ} (h : adjB p q) : adjB q p := by
  obtain ⟨h1, h2⟩ := h
  exact ⟨by omega, by omega⟩

theorem passC_symm {M : MathApi} {simFn : String → String → ℚ}
    (hD : ∀ a b c d, _haversine_m M a b c d = _haversine_m M c d a b)
    (hS : ∀ a b, simFn a b = simFn b a) (x y : String × ℚ × ℚ) :
    passC M simFn x y ↔ passC M simFn y x := by
  unfold passC
  rw [hD x.2.1 x.2.2 y.2.1 y.2.2, hS (_name_key x.1) (_name_key y.1)]

theorem pairSepC_symm {M : MathApi} {simFn : String → String → ℚ}
    {x y : String × ℚ × ℚ} (h : pairSepC M simFn x y) : pairSepC M simFn y x := by
  intro hadj
  exact ⟨(h (adjB_symm hadj)).2, (h (adjB_symm hadj)).1⟩

theorem findMerge_none_iff (M : MathApi) (simFn : String → String → ℚ)
    (kept : List Course) (c : Course) :
    ∀ l : List ℕ, (findMerge M simFn kept c l = none ↔
      ∀ i ∈ l, ¬ passC M simFn (coreOf c) (coreOf (kept.getD i cdefault))) := by
  intro l
  induction l with
  | nil => simp [findMerge]
  | cons i rest ih =>
    rw [findMerge]
    by_cases h1 : 150 <
        _haversine_m M c.lat c.lon (kept.getD i cdefault).lat (kept.getD i cdefault).lon
    · rw [if_pos h1]
      constructor
      · intro h j hj
        rcases List.mem_cons.mp hj with hj | hj
        · subst hj
          rintro ⟨hd, _⟩
          exact absurd hd (not_le.mpr h1)
        · exact (ih.mp h) j hj
      · intro h
        exact ih.mpr fun j hj => h j (List.mem_cons_of_mem i hj)
    · rw [if_neg h1]
      by_cases h2 : simFn (_name_key c.name) (_name_key (kept.getD i cdefault).name) < 88 / 100
      · rw [if_pos h2]
        constructor
        · intro h j hj
          rcases List.mem_cons.mp hj with hj | hj
          · subst hj
            rintro ⟨_, hs⟩
            exact absurd hs (not_le.mpr h2)
          · exact (ih.mp h) j hj
        · intro h
          exact ih.mpr fun j hj => h j (List.mem_cons_of_mem i hj)
      · rw [if_neg h2]
        constructor
        · intro h
          exact absurd h (by simp)
        · intro h
          exact absurd ⟨not_lt.mp h1, not_lt.mp h2⟩ (h i (List.mem_cons_self i rest))

theorem mem_nbrs {bk : Buckets} {p : ℤ × ℤ} {i : ℕ} :
    i ∈ nbrs bk p ↔ ∃ q : ℤ × ℤ, adjB q p ∧ i ∈ bk q := by
  unfold nbrs
  simp only [List.mem_flatMap]
  constructor
  · rintro ⟨dx, hdx, dy, hdy, hbk⟩
    refine ⟨(p.1 + dx, p.2 + dy), ⟨?_, ?_⟩, hbk⟩
    · simp only [List.mem_cons, List.mem_singleton] at hdx
      simp only
      rcases hdx with h | h | h | h <;> first | (subst h; omega) | (simp at h)
    · simp only [List.mem_cons, List.mem_singleton] at hdy
      simp only
      rcases hdy with h | h | h | h <;> first | (subst h; omega) | (simp at h)
  · rintro ⟨q, ⟨h1, h2⟩, hbk⟩
    refine ⟨q.1 - p.1, ?_, q.2 - p.2, ?_, ?_⟩
    · simp only [List.mem_cons, List.mem_singleton]
      omega
    · simp only [List.mem_cons, List.mem_singleton]
      omega
    · have hq : (p.1 + (q.1 - p.1), p.2 + (q.2 - p.2)) = q := by
        have : p.1 + (q.1 - p.1) = q.1 := by omega
        have h2q : p.2 + (q.2 - p.2) = q.2 := by omega
        rw [this, h2q]
      rw [hq]
      exact hbk

theorem getD_append_left {l1 l2 : List Course} {j : ℕ} (h : j < l1.length) :
    (l1 ++ l2).getD j cdefault = l1.getD j cdefault := by
  rw [List.getD_eq_getElem?_getD, List.getD_eq_getElem?_getD, List.getElem?_append_left h]

theorem getD_concat_length (l : List Course) (c : Course) :
    (l ++ [c]).getD l.length cdefault = c := by
  rw [List.getD_eq_getElem?_getD, List.getElem?_concat_length]
  rfl

structure DInv (M : MathApi) (simFn : String → String → ℚ) (st : DState) : Prop where
  idx_lt : ∀ b i, i ∈ st.buckets b → i < st.kept.length
  idx_bucket : ∀ b i, i ∈ st.buckets b → b = bucketC (coreOf (st.kept.getD i cdefault))
  mem_bucket : ∀ i, i < st.kept.length → i ∈ st.buckets (bucketC (coreOf (st.kept.getD i cdefault)))
  sep : List.Pairwise (pairSepC M simFn) (st.kept.map coreOf)

theorem dinv_empty (M : MathApi) (simFn : String → String → ℚ) :
    DInv M simFn emptyD := by
  constructor <;> simp [emptyD]

theorem map_core_set (l : List Course) (i : ℕ) (m : String) :
    (l.set i (Course.mk (l.getD i cdefault).name (l.getD i cdefault).lat
      (l.getD i cdefault).lon m)).map coreOf = l.map coreOf := by
  by_cases hi : i < l.length
  · apply List.ext_getElem?
    intro j
    rw [List.getElem?_map, List.getElem?_map, List.getElem?_set]
    by_cases hij : i = j
    · subst hij
      rw [if_pos rfl, if_pos hi]
      rw [List.getElem?_eq_getElem hi]
      simp [coreOf, List.getElem?_eq_getElem hi]
    · rw [if_neg hij]
  · rw [List.set_eq_of_length_le (le_of_not_lt hi)]

theorem core_getD_set (l : List Course) (i : ℕ) (m : String) (j : ℕ) :
    coreOf ((l.set i (Course.mk (l.getD i cdefault).name (l.getD i cdefault).lat
      (l.getD i cdefault).lon m)).getD j cdefault) = coreOf (l.getD j cdefault) := by
  by_cases hi : i < l.length
  · by_cases hij : i = j
    · subst hij
      rw [List.getD_eq_getElem?_getD, List.getElem?_set, if_pos rfl, if_pos hi]
      simp [coreOf, List.getElem?_eq_getElem hi]
    · rw [List.getD_eq_getElem?_getD, List.getElem?_set, if_neg hij,
        ← List.getD_eq_getElem?_getD]
  · rw [List.set_eq_of_length_le (le_of_not_lt hi)]

theorem dinv_step (M : MathApi) (simFn : String → String → ℚ)
    (hD : ∀ a b c d, _haversine_m M a b c d = _haversine_m M c d a b)
    (hS : ∀ a b, simFn a b = simFn b a) (st : DState) (c : Course)
    (h : DInv M simFn st) : DInv M simFn (dedupeStep M simFn st c) := by
  rcases hfm : findMerge M simFn st.kept c (nbrs st.buckets (bucket c.lat c.lon)) with _ | i
  · rw [dedupeStep_eq_append hfm]
    have hcross : ∀ x ∈ st.kept, pairSepC M simFn (coreOf x) (coreOf c) := by
      intro x hx hadj
      obtain ⟨j, hj, hxj⟩ := List.mem_iff_getElem.mp hx
      have hgd : st.kept.getD j cdefault = x := by
        rw [List.getD_eq_getElem?_getD, List.getElem?_eq_getElem hj]
        exact hxj
      have hmem : j ∈ st.buckets (bucketC (coreOf x)) := by
        have hmb := h.mem_bucket j hj
        rwa [hgd] at hmb
      have hcand : j ∈ nbrs st.buckets (bucket c.lat c.lon) :=
        mem_nbrs.mpr ⟨bucketC (coreOf x), hadj, hmem⟩
      have hnp := (findMerge_none_iff M simFn st.kept c _).mp hfm j hcand
      rw [hgd] at hnp
      exact ⟨fun hp => hnp ((passC_symm hD hS _ _).mp hp), hnp⟩
    constructor
    · intro b j hj
      dsimp only at hj
      simp only [List.length_append, List.length_singleton]
      by_cases hb : b = bucket c.lat c.lon
      · rw [if_pos hb] at hj
        rcases List.mem_append.mp hj with hj | hj
        · have := h.idx_lt b j hj
          omega
        · have : j = st.kept.length := by simpa using hj
          omega
      · rw [if_neg hb] at hj
        have := h.idx_lt b j hj
        omega
    · intro b j hj
      dsimp only at hj ⊢
      by_cases hb : b = bucket c.lat c.lon
      · rw [if_pos hb] at hj
        rcases List.mem_append.mp hj with hj | hj
        · have hlt := h.idx_lt b j hj
          rw [getD_append_left hlt]
          exact h.idx_bucket b j hj
        · have hjl : j = st.kept.length := by simpa using hj
          subst hjl
          rw [getD_concat_length]
          exact hb
      · rw [if_neg hb] at hj
        have hlt := h.idx_lt b j hj
        rw [getD_append_left hlt]
        exact h.idx_bucket b j hj
    · intro j hj
      dsimp only at hj ⊢
      simp only [List.length_append, List.length_singleton] at hj
      by_cases hjl : j < st.kept.length
      · rw [getD_append_left hjl]
        have hmb := h.mem_bucket j hjl
        by_cases hb : bucketC (coreOf (st.kept.getD j cdefault)) = bucket c.lat c.lon
        · rw [if_pos hb]
          exact List.mem_append_left _ hmb
        · rw [if_neg hb]
          exact hmb
      · have hjeq : j = st.kept.length := by omega
        subst hjeq
        rw [getD_concat_length]
        have hb : bucketC (coreOf c) = bucket c.lat c.lon := rfl
        rw [hb, if_pos rfl]
        exact List.mem_append_right _ (List.mem_singleton.mpr rfl)
    · dsimp only
      rw [List.map_append]
      refine List.pairwise_append.mpr ⟨h.sep, List.pairwise_singleton _ _, ?_⟩
      intro a ha b hb
      have hbc : b = coreOf c := by simpa using hb
      obtain ⟨x, hx, hxa⟩ := List.mem_map.mp ha
      subst hbc
      rw [← hxa]
      exact hcross x hx
  · rw [dedupeStep_eq_merge hfm]
    by_cases hcond : (st.kept.getD i cdefault).meta = "" ∧ c.meta ≠ ""
    · rw [if_pos hcond]
      constructor
      · intro b j hj
        dsimp only at hj ⊢
        rw [List.length_set]
        exact h.idx_lt b j hj
      · intro b j hj
        dsimp only at hj ⊢
        rw [core_getD_set]
        exact h.idx_bucket b j hj
      · intro j hj
        dsimp only at hj ⊢
        rw [List.length_set] at hj
        rw [core_getD_set]
        exact h.mem_bucket j hj
      · dsimp only
        rw [map_core_set]
        exact h.sep
    · rw [if_neg hcond]
      exact h

theorem dinv_fold (M : MathApi) (simFn : String → String → ℚ)
    (hD : ∀ a b c d, _haversine_m M a b c d = _haversine_m M c d a b)
    (hS : ∀ a b, simFn a b = simFn b a) :
    ∀ (l : List Course) (st : DState), DInv M simFn st →
      DInv M simFn (l.foldl (dedupeStep M simFn) st) := by
  intro l
  induction l with
  | nil => intro st h; simpa using h
  | cons c l ih =>
    intro st h
    rw [List.foldl_cons]
    exact ih _ (dinv_step M simFn hD hS st c h)

theorem fold_no_merge (M : MathApi) (simFn : String → String → ℚ)
    (hD : ∀ a b c d, _haversine_m M a b c d = _haversine_m M c d a b)
    (hS : ∀ a b, simFn a b = simFn b a) :
    ∀ (l : List Course) (st : DState), DInv M simFn st →
      List.Pairwise (pairSepC M simFn) ((st.kept ++ l).map coreOf) →
      (l.foldl (dedupeStep M simFn) st).kept = st.kept ++ l := by
  intro l
  induction l with
  | nil => intro st _ _; simp
  | cons c l ih =>
    intro st hinv hpw
    have hfm : findMerge M simFn st.kept c (nbrs st.buckets (bucket c.lat c.lon)) = none := by
      apply (findMerge_none_iff M simFn st.kept c _).mpr
      intro i hi
      obtain ⟨q, hadj, hbk⟩ := mem_nbrs.mp hi
      have hlt := hinv.idx_lt q i hbk
      have hqb := hinv.idx_bucket q i hbk
      have hmem : st.kept.getD i cdefault ∈ st.kept := by
        have hgd : st.kept.getD i cdefault = st.kept[i] := by
          rw [List.getD_eq_getElem?_getD, List.getElem?_eq_getElem hlt]
          rfl
        rw [hgd]
        exact List.getElem_mem hlt
      have hcross := (List.pairwise_append.mp (by rwa [List.map_append] at hpw)).2.2
      have hp := hcross (coreOf (st.kept.getD i cdefault))
        (List.mem_map_of_mem coreOf hmem) (coreOf c)
        (by
          rw [List.map_cons]
          exact List.mem_cons_self _ _)
      have hadj2 : adjB (bucketC (coreOf (st.kept.getD i cdefault))) (bucketC (coreOf c)) := by
        rw [← hqb]
        exact hadj
      exact (hp hadj2).2
    rw [List.foldl_cons, dedupeStep_eq_append hfm]
    have hres := ih (DState.mk (st.kept ++ [c])
      (fun q => if q = bucket c.lat c.lon then st.buckets q ++ [st.kept.length] else st.buckets q))
      (by
        have := dinv_step M simFn hD hS st c hinv
        rwa [dedupeStep_eq_append hfm] at this)
      (by
        dsimp only
        rw [List.append_assoc, List.singleton_append]
        exact hpw)
    rw [hres]
    dsimp only
    rw [List.append_assoc, List.singleton_append]

/-- Positive side of the idempotence analysis: `dedupe_courses` applied to
its own output returns it unchanged whenever the distance function and the
similarity function are symmetric.  The similarity the program uses,
`SequenceMatcher.ratio`, is not symmetric in general, and the theorem after
the next shows the law then fails. -/
theorem dedupe_idempotent (M : MathApi) (simFn : String → String → ℚ)
    (hD : ∀ a b c d, _haversine_m M a b c d = _haversine_m M c d a b)
    (hS : ∀ a b, simFn a b = simFn b a) (courses : List Course) :
    dedupe_courses M simFn (dedupe_courses M simFn courses) =
      dedupe_courses M simFn courses := by
  have hinv1 : DInv M simFn (courses.foldl (dedupeStep M simFn) emptyD) :=
    dinv_fold M simFn hD hS courses emptyD (dinv_empty M simFn)
  have hO : dedupe_courses M simFn courses =
      ((courses.foldl (dedupeStep M simFn) emptyD).kept).mergeSort leName := rfl
  have hsorted : List.Pairwise (fun a b => leName a b = true)
      (((courses.foldl (dedupeStep M simFn) emptyD).kept).mergeSort leName) :=
    List.sorted_mergeSort leName_trans leName_total _
  have hperm := List.mergeSort_perm
    ((courses.foldl (dedupeStep M simFn) emptyD).kept) leName
  have hpw : List.Pairwise (pairSepC M simFn)
      ((((courses.foldl (dedupeStep M simFn) emptyD).kept).mergeSort leName).map coreOf) :=
    ((hperm.map coreOf).pairwise_iff (fun h => pairSepC_symm h)).mpr hinv1.sep
  have hrun2 : ((((courses.foldl (dedupeStep M simFn) emptyD).kept).mergeSort leName).foldl
      (dedupeStep M simFn) emptyD).kept =
      ((courses.foldl (dedupeStep M simFn) emptyD).kept).mergeSort leName := by
    have := fold_no_merge M simFn hD hS
      (((courses.foldl (dedupeStep M simFn) emptyD).kept).mergeSort leName)
      emptyD (dinv_empty M simFn) (by simpa [emptyD] using hpw)
    simpa [emptyD] using this
  calc dedupe_courses M simFn (dedupe_courses M simFn courses)
      = ((((courses.foldl (dedupeStep M simFn) emptyD).kept).mergeSort leName).foldl
          (dedupeStep M simFn) emptyD).kept.mergeSort leName := by
            rw [hO]
            rfl
    _ = (((courses.foldl (dedupeStep M simFn) emptyD).kept).mergeSort leName).mergeSort
          leName := by rw [hrun2]
    _ = ((courses.foldl (dedupeStep M simFn) emptyD).kept).mergeSort leName :=
          List.mergeSort_of_sorted hsorted
    _ = dedupe_courses M simFn courses := hO.symm

/-- The symmetric-parameter idempotence lemma applied at a concrete
input. -/
theorem dedupe_idempotent_witness :
    dedupe_courses trigEx sim0 (dedupe_courses trigEx sim0 [courseEx]) =
      dedupe_courses trigEx sim0 [courseEx] :=
  dedupe_idempotent trigEx sim0 (fun _ _ _ _ => rfl) (fun _ _ => rfl) [courseEx]

/-- The similarity values `difflib.SequenceMatcher.ratio` returns on the
name keys xxxxxabcb and xxxxxbcab: 14/18 in one argument order but 16/18
in the other (the matcher is not symmetric), one below and one above the
0.88 merge threshold.  Away from this pair the value is irrelevant and set
to 1. -/
def simAsym : String → String → ℚ := fun a b =>
  if a = "xxxxxabcb" ∧ b = "xxxxxbcab" then 7 / 9
  else if a = "xxxxxbcab" ∧ b = "xxxxxabcb" then 8 / 9
  else 1

/-- Two records at the same coordinates whose names straddle the merge
threshold depending on comparison order. -/
def courseA : Course := ⟨"xxxxxabcb", 0, 0, ""⟩

def courseB : Course := ⟨"xxxxxbcab", 0, 0, ""⟩

theorem nbrs_empty (p : ℤ × ℤ) : nbrs (fun _ => []) p = [] := by
  simp [nbrs]

theorem step_empty (M : MathApi) (simFn : String → String → ℚ) (c : Course)
    (hb : bucket c.lat c.lon = ((0:ℤ), (0:ℤ))) :
    dedupeStep M simFn emptyD c =
      DState.mk [c] (fun q => if q = ((0:ℤ), (0:ℤ)) then [0] else []) := by
  have hfm : findMerge M simFn emptyD.kept c (nbrs emptyD.buckets (bucket c.lat c.lon)) = none := by
    rw [show emptyD.buckets = (fun _ => []) from rfl, nbrs_empty]
    rfl
  rw [dedupeStep_eq_append hfm]
  show DState.mk _ _ = _
  rw [hb]
  rfl

/-- First run on the failing input: the incoming record A is compared to
the survivor B with similarity 14/18 < 0.88, so both are kept and the
output sorts to [A, B]. -/
theorem run1_eval :
    dedupe_courses trigEx simAsym [courseB, courseA] = [courseA, courseB] := by
  have hbB : bucket courseB.lat courseB.lon = ((0:ℤ), (0:ℤ)) := by
    norm_num [bucket, pyInt, grid, courseB]
  have hbA : bucket courseA.lat courseA.lon = ((0:ℤ), (0:ℤ)) := by
    norm_num [bucket, pyInt, grid, courseA]
  have hst1 := step_empty trigEx simAsym courseB hbB
  have hn1 : nbrs (fun q => if q = ((0:ℤ),(0:ℤ)) then [0] else []) ((0:ℤ),(0:ℤ)) = [0] := by
    simp +decide [nbrs, List.flatMap]
  have hfm2 : findMerge trigEx simAsym [courseB] courseA
      (nbrs (fun q => if q = ((0:ℤ),(0:ℤ)) then [0] else []) (bucket courseA.lat courseA.lon)) =
      none := by
    rw [hbA, hn1, findMerge]
    rw [if_neg (by norm_num [_haversine_m, trigEx]), if_pos ?hsim]
    · rfl
    case hsim =>
      have hs : simAsym (_name_key courseA.name) (_name_key ([courseB].getD 0 cdefault).name) =
          7 / 9 := by
        simp +decide [simAsym, courseA, courseB]
      rw [hs]
      norm_num
  show ((List.foldl (dedupeStep trigEx simAsym) emptyD [courseB, courseA]).kept).mergeSort
      leName = [courseA, courseB]
  rw [List.foldl_cons, List.foldl_cons, List.foldl_nil, hst1,
    dedupeStep_eq_append hfm2]
  show ([courseB] ++ [courseA]).mergeSort leName = [courseA, courseB]
  rw [show [courseB] ++ [courseA] = [courseB, courseA] from rfl, mergeSort_pair]
  rw [if_neg (by decide : ¬ leName courseB courseA = true)]

/-- Second run, on the first output: the incoming record B is now
compared to the survivor A with similarity 16/18 at distance 0, so B is
absorbed. -/
theorem run2_eval :
    dedupe_courses trigEx simAsym [courseA, courseB] = [courseA] := by
  have hbB : bucket courseB.lat courseB.lon = ((0:ℤ), (0:ℤ)) := by
    norm_num [bucket, pyInt, grid, courseB]
  have hbA : bucket courseA.lat courseA.lon = ((0:ℤ), (0:ℤ)) := by
    norm_num [bucket, pyInt, grid, courseA]
  have hst1 := step_empty trigEx simAsym courseA hbA
  have hn1 : nbrs (fun q => if q = ((0:ℤ),(0:ℤ)) then [0] else []) ((0:ℤ),(0:ℤ)) = [0] := by
    simp +decide [nbrs, List.flatMap]
  have hfm2 : findMerge trigEx simAsym [courseA] courseB
      (nbrs (fun q => if q = ((0:ℤ),(0:ℤ)) then [0] else []) (bucket courseB.lat courseB.lon)) =
      some 0 := by
    rw [hbB, hn1, findMerge]
    rw [if_neg (by norm_num [_haversine_m, trigEx]), if_neg ?hsim]
    case hsim =>
      have hs : simAsym (_name_key courseB.name) (_name_key ([courseA].getD 0 cdefault).name) =
          8 / 9 := by
        simp +decide [simAsym, courseA, courseB]
      rw [hs]
      norm_num
  show ((List.foldl (dedupeStep trigEx simAsym) emptyD [courseA, courseB]).kept).mergeSort
      leName = [courseA]
  rw [List.foldl_cons, List.foldl_cons, List.foldl_nil, hst1,
    dedupeStep_eq_merge hfm2]
  rw [if_neg (by simp +decide [courseA, courseB])]
  exact mergeSort_single leName courseA

/-- C5: the dedup engine is not idempotent — with the asymmetric
similarity values of `SequenceMatcher.ratio` on this name pair,
`dedupe_courses` keeps two records on the first run but merges them on the
second run over its own output, so the claimed law fails on the code. -/
theorem dedupe_not_idempotent :
    dedupe_courses trigEx simAsym [courseB, courseA] = [courseA, courseB] ∧
    dedupe_courses trigEx simAsym (dedupe_courses trigEx simAsym [courseB, courseA]) =
      [courseA] ∧
    dedupe_courses trigEx simAsym (dedupe_courses trigEx simAsym [courseB, courseA]) ≠
      dedupe_courses trigEx simAsym [courseB, courseA] := by
  refine ⟨run1_eval, ?_, ?_⟩
  · rw [run1_eval, run2_eval]
  · rw [run1_eval, run2_eval]
    simp +decide [courseA, courseB]
